import Mathlib

/-!
# Verification of the SQL schema extraction engine

A shallow embedding of the core of the `generateQuery` repository
(`src/main.py`): the functions `extract_tables_and_ddl` (the spec's
"Table Collector" / `collect_tables`), `parse_constraints` (the
"Constraint Parser") and `to_serializable` (the "Snapshot Serializer" /
`serialize`).

The Python code drives everything with four concrete regular
expressions.  Each of those patterns is deterministic over its input
(every quantifier in them is either bounded by a forbidden character
class, e.g. `[^"]+` followed by `"`, or is the non-greedy `[\s\S]*?`
which takes the shortest gap), so each pattern is embedded as a direct
character-level matcher, and `re.finditer` as a left-to-right
non-overlapping scan that on failure advances one character and on
success resumes at the end of the match.

Modelling notes:
* strings are Lean `String`s, processed as their underlying `List Char`;
* Python's `\s` and `str.strip()` whitespace is modelled as the six
  ASCII whitespace characters (Unicode-only whitespace is out of scope);
* `re.IGNORECASE` is modelled as ASCII case folding (the keywords
  matched are all ASCII);
* the Python `dict` registry is an association list with in-place
  overwrite (`regSet`), preserving insertion order of keys;
* the Python `set` used for `dependencies` is a duplicate-free list in
  insertion order (`addSet`); only its sorted image is observable;
* Python's `sorted` on distinct strings is insertion sort by the
  code-point lexicographic order `strLe` (for distinct keys any stable
  comparison sort produces the same, uniquely determined, output).
-/

/-- ASCII case folding of a code point: the model of `re.IGNORECASE`
for the ASCII keywords appearing in the patterns. -/
def toLowerNat (n : Nat) : Nat :=
  if 65 ≤ n ∧ n ≤ 90 then n + 32 else n

/-- Case-insensitive character equality (ASCII folding). -/
def ciEq (a b : Char) : Bool :=
  toLowerNat a.toNat == toLowerNat b.toNat

/-- The six ASCII whitespace characters: the model of Python's `\s`
class and of the characters removed by `str.strip()`. -/
def isSpace (c : Char) : Bool :=
  c == ' ' || c == '\t' || c == '\n' || c == '\r' || c == '\x0b' || c == '\x0c'

/-- Match a literal keyword case-insensitively at the head of the
input, returning the remaining input (`CREATE TABLE`, `ALTER TABLE`,
`PRIMARY`, `KEY`, `FOREIGN`, `REFERENCES`). -/
def matchCI : List Char → List Char → Option (List Char)
  | [], cs => some cs
  | _ :: _, [] => none
  | k :: ks, c :: cs => if ciEq k c then matchCI ks cs else none

/-- `\s+` followed by a non-whitespace continuation: consume a maximal
non-empty run of whitespace (the continuation characters in the source
patterns — `"`, `K` — are never whitespace, so the greedy run never
backtracks). -/
def skipWs1 : List Char → Option (List Char)
  | [] => none
  | c :: cs => if isSpace c then some (cs.dropWhile isSpace) else none

/-- `\s*`: consume a maximal (possibly empty) whitespace run. -/
def skipWs (cs : List Char) : List Char :=
  cs.dropWhile isSpace

/-- A single literal character (`\.`, `\(`, or the quotes around an
identifier). -/
def expectChar (c : Char) : List Char → Option (List Char)
  | [] => none
  | d :: rest => if d = c then some rest else none

/-- `"([^"]+)"`: a double quote, a non-empty run of non-quote
characters (the capture), and a closing double quote.  Because `[^"]`
cannot match `"`, the greedy run extends exactly to the next quote. -/
def matchQuoted (cs : List Char) : Option (List Char × List Char) :=
  (expectChar '"' cs).bind fun r =>
  (expectChar '"' (r.dropWhile (· != '"'))).bind fun rest =>
  if r.takeWhile (· != '"') = [] then none
  else some (r.takeWhile (· != '"'), rest)

/-- `[\s\S]*?;`: the shortest run of arbitrary characters ending at the
first semicolon; returns the consumed text (semicolon included) and the
rest.  Fails when no semicolon remains. -/
def takeThroughSemi : List Char → Option (List Char × List Char)
  | [] => none
  | c :: cs =>
    if c = ';' then some ([';'], cs)
    else
      match takeThroughSemi cs with
      | some (t, r) => some (c :: t, r)
      | none => none

/-- `([^\)]+)\)`: the capture is the non-empty run up to the first `)`
(which is consumed); the opening parenthesis has already been consumed
by the caller. -/
def takeThroughClose (cs : List Char) : Option (List Char × List Char) :=
  (expectChar ')' (cs.dropWhile (· != ')'))).bind fun rest =>
  if cs.takeWhile (· != ')') = [] then none
  else some (cs.takeWhile (· != ')'), rest)

/-- One match of the statement pattern
`(KW\s+"(?P<schema>[^"]+)"\."(?P<table>[^"]+)"[\s\S]*?;)` where `KW` is
`CREATE TABLE` or `ALTER TABLE`: group 1 (the whole statement), the
`schema` and `table` groups. -/
structure StmtMatch where
  stmt : List Char
  schema : List Char
  table : List Char
deriving Repr, DecidableEq

/-- Try the statement pattern anchored at the start of `cs`; on success
return the match and the input remaining after it. -/
def matchStmtAt (kw : List Char) (cs : List Char) : Option (StmtMatch × List Char) :=
  (matchCI kw cs).bind fun r1 =>
  (skipWs1 r1).bind fun r2 =>
  (matchQuoted r2).bind fun sp =>
  (expectChar '.' sp.2).bind fun r4 =>
  (matchQuoted r4).bind fun tp =>
  (takeThroughSemi tp.2).map fun rp =>
  (⟨cs.take (cs.length - rp.2.length), sp.1, tp.1⟩, rp.2)

/-- `re.finditer` over a deterministic anchored matcher `step`: scan
left to right, on failure advance one character, on success emit the
match and resume after it.  The fuel argument is only a structural
termination measure; `scanAux_stable` below shows any fuel
`≥ cs.length` gives the same result whenever every successful match
consumes at least one character (true of all four patterns). -/
def scanAux (step : List Char → Option (β × List Char)) : Nat → List Char → List β
  | 0, _ => []
  | _ + 1, [] => []
  | fuel + 1, c :: cs =>
    match step (c :: cs) with
    | some (b, rest) => b :: scanAux step fuel rest
    | none => scanAux step fuel cs

/-- All matches of the statement pattern with keyword `kw` in `cs`. -/
def scanStmts (kw : List Char) (cs : List Char) : List StmtMatch :=
  scanAux (matchStmtAt kw) cs.length cs

/-- The keyword of the Table Collector's pattern. -/
def createKW : List Char := "CREATE TABLE".data

/-- The keyword of the Constraint Parser's statement pattern. -/
def alterKW : List Char := "ALTER TABLE".data

/-- Try `PRIMARY\s+KEY\s*\((?P<cols>[^\)]+)\)` anchored at the start of
`cs`; on success return the `cols` capture and the remaining input. -/
def matchPKAt (cs : List Char) : Option (List Char × List Char) :=
  (matchCI "PRIMARY".data cs).bind fun r1 =>
  (skipWs1 r1).bind fun r2 =>
  (matchCI "KEY".data r2).bind fun r3 =>
  (expectChar '(' (skipWs r3)).bind fun r4 =>
  takeThroughClose r4

/-- All `cols` captures of the primary-key clause pattern in `cs`. -/
def scanPK (cs : List Char) : List (List Char) :=
  scanAux matchPKAt cs.length cs

/-- One match of the foreign-key clause pattern: the `local`,
`ref_schema`, `ref_table` and `ref_cols` captures. -/
structure FKMatch where
  localCols : List Char
  refSchema : List Char
  refTable : List Char
  refCols : List Char
deriving Repr, DecidableEq

/-- Try `REFERENCES\s+"(?P<ref_schema>[^"]+)"\."(?P<ref_table>[^"]+)"\s*\((?P<ref_cols>[^\)]+)\)`
anchored at the start of `cs`. -/
def matchRefTail (cs : List Char) : Option ((List Char × List Char × List Char) × List Char) :=
  (matchCI "REFERENCES".data cs).bind fun r1 =>
  (skipWs1 r1).bind fun r2 =>
  (matchQuoted r2).bind fun sp =>
  (expectChar '.' sp.2).bind fun r4 =>
  (matchQuoted r4).bind fun tp =>
  (expectChar '(' (skipWs tp.2)).bind fun r6 =>
  (takeThroughClose r6).map fun cp =>
  ((sp.1, tp.1, cp.1), cp.2)

/-- The non-greedy gap `[\s\S]*?REFERENCES ...`: the first position at
which the whole `REFERENCES` tail matches. -/
def scanForTail : List Char → Option ((List Char × List Char × List Char) × List Char)
  | [] => none
  | c :: cs =>
    match matchRefTail (c :: cs) with
    | some t => some t
    | none => scanForTail cs

/-- Try `FOREIGN\s+KEY\s*\((?P<local>[^\)]+)\)[\s\S]*?REFERENCES ...`
anchored at the start of `cs`. -/
def matchFKAt (cs : List Char) : Option (FKMatch × List Char) :=
  (matchCI "FOREIGN".data cs).bind fun r1 =>
  (skipWs1 r1).bind fun r2 =>
  (matchCI "KEY".data r2).bind fun r3 =>
  (expectChar '(' (skipWs r3)).bind fun r4 =>
  (takeThroughClose r4).bind fun lp =>
  (scanForTail lp.2).map fun tp =>
  (⟨lp.1, tp.1.1, tp.1.2.1, tp.1.2.2⟩, tp.2)

/-- All matches of the foreign-key clause pattern in `cs`. -/
def scanFK (cs : List Char) : List FKMatch :=
  scanAux matchFKAt cs.length cs

/-- Python `s.strip()`: drop ASCII whitespace from both ends. -/
def pyStrip (cs : List Char) : List Char :=
  ((cs.dropWhile isSpace).reverse.dropWhile isSpace).reverse

/-- Python `s.strip('"')`: drop double quotes from both ends. -/
def stripQuotes (cs : List Char) : List Char :=
  ((cs.dropWhile (· == '"')).reverse.dropWhile (· == '"')).reverse

/-- `String.strip` at the string level, for the Snapshot Serializer. -/
def pyStripS (s : String) : String :=
  ⟨pyStrip s.data⟩

/-- Python `s.split(',')`: split on every comma, keeping empty pieces
(`"".split(',') == [""]`). -/
def splitComma : List Char → List (List Char)
  | [] => [[]]
  | c :: cs =>
    if c = ',' then [] :: splitComma cs
    else
      match splitComma cs with
      | t :: ts => (c :: t) :: ts
      | [] => [[c]]

/-- `[c.strip().strip('"') for c in raw.split(',')]` as strings. -/
def cleanCols (raw : List Char) : List String :=
  (splitComma raw).map fun c => ⟨stripQuotes (pyStrip c)⟩


/-- One entry of a table's `foreign_keys` list: the dict
`{'column': ..., 'references': ...}` built by `parse_constraints`. -/
structure ForeignKeyRecord where
  column : String
  references : String
deriving Repr, DecidableEq

/-- One value of the registry: the dict built per table by
`extract_tables_and_ddl` and mutated by `parse_constraints`. -/
structure TableRecord where
  name : String
  schema_name : String
  schema_stmt : String
  constraints_raw : List String
  primary_keys : List String
  foreign_keys : List ForeignKeyRecord
  dependencies : List String
deriving Repr, DecidableEq

/-- The registry: the Python `dict` from table name to record, as an
association list in key insertion order. -/
abbrev Registry := List (String × TableRecord)

/-- Python `tables[t]` / `t in tables`: first entry with the key. -/
def regGet : Registry → String → Option TableRecord
  | [], _ => none
  | (k, v) :: rest, t => if k = t then some v else regGet rest t

/-- Python `tables[t] = v`: overwrite the value at an existing key in
place, otherwise append a new entry. -/
def regSet : Registry → String → TableRecord → Registry
  | [], k, v => [(k, v)]
  | (k', v') :: rest, k, v =>
    if k' = k then (k', v) :: rest else (k', v') :: regSet rest k v

/-- Python `set.add`: insert unless already present. -/
def addSet (l : List String) (x : String) : List String :=
  if x ∈ l then l else l ++ [x]

/-- The fresh record seeded from one `CREATE TABLE` match
(`src/main.py` lines 23–31). -/
def mkRecord (m : StmtMatch) : TableRecord where
  name := ⟨m.table⟩
  schema_name := ⟨m.schema⟩
  schema_stmt := ⟨m.stmt⟩
  constraints_raw := []
  primary_keys := []
  foreign_keys := []
  dependencies := []

/-- `extract_tables_and_ddl` (`src/main.py` lines 11–33), the spec's
`collect_tables`: one registry entry per `CREATE TABLE` match, later
matches for the same table name overwriting earlier ones. -/
def extract_tables_and_ddl (sql_text : String) : Registry :=
  (scanStmts createKW sql_text.data).foldl
    (fun reg m => regSet reg ⟨m.table⟩ (mkRecord m)) []

/-- The primary-key update for one `PRIMARY KEY (cols)` capture
(`src/main.py` lines 50–54): split on commas, strip whitespace then
quotes, drop empties, append first occurrences only. -/
def addPKCols (pks : List String) (colsRaw : List Char) : List String :=
  (cleanCols colsRaw).foldl
    (fun acc c => if c ≠ "" ∧ c ∉ acc then acc ++ [c] else acc) pks

/-- `', '.join([c.strip().strip('"') for c in raw.split(',')])`. -/
def renderCols (raw : List Char) : String :=
  String.intercalate ", " (cleanCols raw)

/-- The ForeignKeyRecord built from one foreign-key clause match
(`src/main.py` lines 62–66): the referenced schema capture is dropped,
only the referenced table name enters the rendered reference. -/
def renderFK (m : FKMatch) : ForeignKeyRecord where
  column := renderCols m.localCols
  references := String.mk m.refTable ++ "(" ++ renderCols m.refCols ++ ")"

/-- The foreign-key update for one clause match (`src/main.py` lines
57–68): append the rendered record and add the referenced table to the
dependency set. -/
def addFK (tr : TableRecord) (m : FKMatch) : TableRecord :=
  { tr with
    foreign_keys := tr.foreign_keys ++ [renderFK m]
    dependencies := addSet tr.dependencies ⟨m.refTable⟩ }

/-- The whole per-statement mutation of one table record inside the
`ALTER TABLE` loop of `parse_constraints`: record the statement text,
then fold the primary-key captures, then the foreign-key matches. -/
def applyStmt (tr : TableRecord) (stmt : List Char) : TableRecord :=
  let tr1 := { tr with constraints_raw := tr.constraints_raw ++ [String.mk stmt] }
  let tr2 := (scanPK stmt).foldl
    (fun r cols => { r with primary_keys := addPKCols r.primary_keys cols }) tr1
  (scanFK stmt).foldl addFK tr2

/-- One iteration of the `ALTER TABLE` loop of `parse_constraints`
(`src/main.py` lines 42–68): skip the statement when its table is not a
registry key, otherwise update that table's record. -/
def processAlter (reg : Registry) (m : StmtMatch) : Registry :=
  match regGet reg ⟨m.table⟩ with
  | none => reg
  | some tr => regSet reg ⟨m.table⟩ (applyStmt tr m.stmt)

/-- `parse_constraints` (`src/main.py` lines 36–68): fold the
per-statement mutation over every `ALTER TABLE` match.  The Python
function mutates the dict in place and returns `None`; the embedding
returns the mutated registry. -/
def parse_constraints (sql_text : String) (tables : Registry) : Registry :=
  (scanStmts alterKW sql_text.data).foldl processAlter tables

/-- Code-point lexicographic strict order on character lists: the model
of Python's `<` on strings. -/
def lexLt : List Char → List Char → Bool
  | [], [] => false
  | [], _ :: _ => true
  | _ :: _, [] => false
  | a :: as, b :: bs =>
    if a.toNat < b.toNat then true
    else if b.toNat < a.toNat then false
    else lexLt as bs

/-- The matching reflexive order on strings, used for sorting. -/
def strLe (a b : String) : Prop :=
  lexLt b.data a.data = false

instance : DecidableRel strLe := fun _ _ =>
  inferInstanceAs (Decidable (_ = false))

/-- Python `sorted` on a list of (distinct) strings. -/
def sortStrings (l : List String) : List String :=
  List.insertionSort strLe l

/-- One output record of `to_serializable`. -/
structure OutRecord where
  name : String
  primary_keys : List String
  foreign_keys : List ForeignKeyRecord
  schema : String
  constraints : String
  dependencies : List String
deriving Repr, DecidableEq

/-- The output record built from one table record (`src/main.py` lines
74–85). -/
def renderOut (tr : TableRecord) : OutRecord where
  name := tr.name
  primary_keys := tr.primary_keys
  foreign_keys := tr.foreign_keys
  schema := tr.schema_stmt
  constraints :=
    if tr.constraints_raw = [] then ""
    else String.intercalate "\n  " (tr.constraints_raw.map pyStripS)
  dependencies := sortStrings tr.dependencies

/-- `to_serializable` (`src/main.py` lines 71–86), the spec's
`serialize`: one output record per registry key, in sorted key order. -/
def to_serializable (items : Registry) : List OutRecord :=
  (sortStrings (items.map Prod.fst)).filterMap
    fun n => (regGet items n).map renderOut

/-! ## Progress of the anchored matchers

Every successful anchored match consumes at least one character.  This
justifies the fuel `cs.length` used by the scanners: `scanAux_stable`
shows the result is the same for every fuel value `≥ cs.length`, so the
fuel is not observable. -/

theorem matchCI_length : ∀ (ks cs rest : List Char), matchCI ks cs = some rest →
    cs.length = ks.length + rest.length
  | [], cs, rest, h => by
    simp only [matchCI, Option.some.injEq] at h
    simp [h]
  | _ :: _, [], _, h => by simp [matchCI] at h
  | k :: ks, c :: cs, rest, h => by
    simp only [matchCI] at h
    split at h
    · have := matchCI_length ks cs rest h
      simp only [List.length_cons, this]
      omega
    · exact absurd h (by simp)

theorem expectChar_lt {c : Char} : ∀ {cs rest : List Char}, expectChar c cs = some rest →
    rest.length < cs.length := by
  intro cs rest h
  cases cs with
  | nil => simp [expectChar] at h
  | cons d cs' =>
    simp only [expectChar] at h
    split at h
    · cases h; simp
    · exact absurd h (by simp)

theorem length_dropWhile_le (p : Char → Bool) (l : List Char) :
    (l.dropWhile p).length ≤ l.length :=
  (List.dropWhile_sublist p).length_le

theorem skipWs1_lt : ∀ {cs rest : List Char}, skipWs1 cs = some rest →
    rest.length < cs.length := by
  intro cs rest h
  cases cs with
  | nil => simp [skipWs1] at h
  | cons c cs' =>
    simp only [skipWs1] at h
    split at h
    · cases h
      exact Nat.lt_succ_of_le (length_dropWhile_le isSpace cs')
    · exact absurd h (by simp)

theorem matchQuoted_lt {cs : List Char} {p : List Char × List Char}
    (h : matchQuoted cs = some p) : p.2.length < cs.length := by
  simp only [matchQuoted, Option.bind_eq_some] at h
  obtain ⟨r, hr, rest', hrest, hif⟩ := h
  have h1 := expectChar_lt hr
  have h2 := expectChar_lt hrest
  have h3 := length_dropWhile_le (· != '"') r
  split at hif
  · exact absurd hif (by simp)
  · cases hif
    show rest'.length < cs.length
    omega

theorem takeThroughClose_lt {cs : List Char} {p : List Char × List Char}
    (h : takeThroughClose cs = some p) : p.2.length < cs.length := by
  simp only [takeThroughClose, Option.bind_eq_some] at h
  obtain ⟨rest', hrest, hif⟩ := h
  have h1 := expectChar_lt hrest
  have h2 := length_dropWhile_le (· != ')') cs
  split at hif
  · exact absurd hif (by simp)
  · cases hif
    show rest'.length < cs.length
    omega

theorem takeThroughSemi_lt : ∀ {cs : List Char} {p : List Char × List Char},
    takeThroughSemi cs = some p → p.2.length < cs.length := by
  intro cs
  induction cs with
  | nil => intro p h; simp [takeThroughSemi] at h
  | cons c cs' ih =>
    intro p h
    simp only [takeThroughSemi] at h
    split at h
    · cases h; simp
    · cases hrec : takeThroughSemi cs' with
      | none => rw [hrec] at h; exact absurd h (by simp)
      | some q =>
        obtain ⟨t, r⟩ := q
        rw [hrec] at h
        cases h
        show r.length < cs'.length + 1
        exact Nat.lt_succ_of_lt (ih hrec)

theorem matchStmtAt_lt {kw cs : List Char} {p : StmtMatch × List Char}
    (hkw : kw ≠ []) (h : matchStmtAt kw cs = some p) : p.2.length < cs.length := by
  simp only [matchStmtAt, Option.bind_eq_some, Option.map_eq_some'] at h
  obtain ⟨r1, h1, r2, h2, sp, h3, r4, h4, tp, h5, rp, h6, heq⟩ := h
  have e1 := matchCI_length kw cs r1 h1
  have e2 := skipWs1_lt h2
  have e3 := matchQuoted_lt h3
  have e4 := expectChar_lt h4
  have e5 := matchQuoted_lt h5
  have e6 := takeThroughSemi_lt h6
  have e7 : rp.2.length = p.2.length := congrArg (fun q => q.2.length) heq
  have e8 : 1 ≤ kw.length := List.length_pos.mpr hkw
  omega

theorem matchPKAt_lt {cs : List Char} {p : List Char × List Char}
    (h : matchPKAt cs = some p) : p.2.length < cs.length := by
  simp only [matchPKAt, Option.bind_eq_some] at h
  obtain ⟨r1, h1, r2, h2, r3, h3, r4, h4, h5⟩ := h
  have e1 := matchCI_length "PRIMARY".data cs r1 h1
  have e2 := skipWs1_lt h2
  have e3 := matchCI_length "KEY".data r2 r3 h3
  have e4 := expectChar_lt h4
  have e5 := length_dropWhile_le isSpace r3
  have e6 := takeThroughClose_lt h5
  simp only [skipWs] at e4
  simp only [String.data] at e1 e3
  omega

theorem matchRefTail_lt {cs : List Char}
    {p : (List Char × List Char × List Char) × List Char}
    (h : matchRefTail cs = some p) : p.2.length < cs.length := by
  simp only [matchRefTail, Option.bind_eq_some, Option.map_eq_some'] at h
  obtain ⟨r1, h1, r2, h2, sp, h3, r4, h4, tp, h5, r6, h6, cp, h7, heq⟩ := h
  have e1 := matchCI_length "REFERENCES".data cs r1 h1
  have e2 := skipWs1_lt h2
  have e3 := matchQuoted_lt h3
  have e4 := expectChar_lt h4
  have e5 := matchQuoted_lt h5
  have e6 := expectChar_lt h6
  have e7 := length_dropWhile_le isSpace tp.2
  have e8 := takeThroughClose_lt h7
  have e9 : cp.2.length = p.2.length := congrArg (fun q => q.2.length) heq
  simp only [skipWs] at e6
  simp only [String.data] at e1
  omega

theorem scanForTail_lt : ∀ {cs : List Char}
    {p : (List Char × List Char × List Char) × List Char},
    scanForTail cs = some p → p.2.length < cs.length := by
  intro cs
  induction cs with
  | nil => intro p h; simp [scanForTail] at h
  | cons c cs' ih =>
    intro p h
    simp only [scanForTail] at h
    cases hm : matchRefTail (c :: cs') with
    | some q => rw [hm] at h; cases h; exact matchRefTail_lt hm
    | none =>
      rw [hm] at h
      exact Nat.lt_succ_of_lt (ih h)

theorem matchFKAt_lt {cs : List Char} {p : FKMatch × List Char}
    (h : matchFKAt cs = some p) : p.2.length < cs.length := by
  simp only [matchFKAt, Option.bind_eq_some, Option.map_eq_some'] at h
  obtain ⟨r1, h1, r2, h2, r3, h3, r4, h4, lp, h5, tp, h6, heq⟩ := h
  have e1 := matchCI_length "FOREIGN".data cs r1 h1
  have e2 := skipWs1_lt h2
  have e3 := matchCI_length "KEY".data r2 r3 h3
  have e4 := expectChar_lt h4
  have e5 := length_dropWhile_le isSpace r3
  have e6 := takeThroughClose_lt h5
  have e7 := scanForTail_lt h6
  have e8 : tp.2.length = p.2.length := congrArg (fun q => q.2.length) heq
  simp only [skipWs] at e4
  simp only [String.data] at e1 e3
  omega

/-- The scanners' fuel is unobservable: any fuel of at least the input
length gives the same match list, provided every successful anchored
match consumes at least one character. -/
theorem scanAux_stable (step : List Char → Option (β × List Char))
    (hstep : ∀ cs p, step cs = some p → p.2.length < cs.length) :
    ∀ (f₁ f₂ : Nat) (cs : List Char), cs.length ≤ f₁ → cs.length ≤ f₂ →
      scanAux step f₁ cs = scanAux step f₂ cs := by
  intro f₁
  induction f₁ with
  | zero =>
    intro f₂ cs h1 _
    have : cs = [] := List.eq_nil_of_length_eq_zero (Nat.le_zero.mp h1)
    subst this
    cases f₂ <;> rfl
  | succ f ih =>
    intro f₂ cs h1 h2
    cases cs with
    | nil => cases f₂ <;> rfl
    | cons c cs' =>
      cases f₂ with
      | zero => simp at h2
      | succ f₂' =>
        simp only [scanAux]
        cases hm : step (c :: cs') with
        | none =>
          simp only [List.length_cons] at h1 h2
          exact ih f₂' cs' (by omega) (by omega)
        | some p =>
          obtain ⟨b, rest⟩ := p
          have hlt := hstep _ _ hm
          simp only [List.length_cons] at h1 h2 hlt
          exact congrArg (b :: ·) (ih f₂' rest (by omega) (by omega))

/-! ## Registry lemmas -/

theorem regGet_regSet : ∀ (reg : Registry) (k : String) (v : TableRecord) (t : String),
    regGet (regSet reg k v) t = if k = t then some v else regGet reg t := by
  intro reg k v
  induction reg with
  | nil => intro t; simp [regSet, regGet]
  | cons e rest ih =>
    intro t
    obtain ⟨k', v'⟩ := e
    by_cases hk : k' = k
    · subst hk
      simp only [regSet, if_pos rfl, regGet]
      by_cases ht : k' = t
      · subst ht; simp
      · simp [ht]
    · simp only [regSet, if_neg hk, regGet]
      by_cases ht : k' = t
      · subst ht
        have : ¬ k = k' := fun h => hk h.symm
        simp [this]
      · simp [ht, ih t]

theorem mem_regSet {e : String × TableRecord} :
    ∀ (reg : Registry) (k : String) (v : TableRecord),
      e ∈ regSet reg k v → e = (k, v) ∨ e ∈ reg := by
  intro reg k v
  induction reg with
  | nil => intro h; simp [regSet] at h; simp [h]
  | cons e' rest ih =>
    obtain ⟨k', v'⟩ := e'
    intro h
    by_cases hk : k' = k
    · subst hk
      simp only [regSet, if_true, eq_self_iff_true, List.mem_cons] at h
      rcases h with h | h
      · exact Or.inl h
      · exact Or.inr (List.mem_cons_of_mem _ h)
    · simp only [regSet, if_neg hk, List.mem_cons] at h
      rcases h with h | h
      · exact Or.inr (by simp [h])
      · rcases ih h with h' | h'
        · exact Or.inl h'
        · exact Or.inr (List.mem_cons_of_mem _ h')

theorem regGet_mem : ∀ {reg : Registry} {t : String} {tr : TableRecord},
    regGet reg t = some tr → (t, tr) ∈ reg := by
  intro reg
  induction reg with
  | nil => intro t tr h; simp [regGet] at h
  | cons e rest ih =>
    intro t tr h
    obtain ⟨k, v⟩ := e
    simp only [regGet] at h
    split at h
    · cases h
      simp_all
    · exact List.mem_cons_of_mem _ (ih h)

theorem regGet_eq_none_of_not_mem : ∀ {reg : Registry} {t : String},
    t ∉ reg.map Prod.fst → regGet reg t = none := by
  intro reg
  induction reg with
  | nil => intro t _; rfl
  | cons e rest ih =>
    intro t h
    obtain ⟨k, v⟩ := e
    simp only [List.map_cons, List.mem_cons] at h
    push_neg at h
    have hk : ¬ (k = t) := fun hk => h.1 hk.symm
    simp only [regGet, if_neg hk]
    exact ih h.2

theorem regGet_some_of_mem_keys : ∀ {reg : Registry} {t : String},
    t ∈ reg.map Prod.fst → ∃ tr, regGet reg t = some tr := by
  intro reg
  induction reg with
  | nil => intro t h; simp at h
  | cons e rest ih =>
    intro t h
    obtain ⟨k, v⟩ := e
    by_cases hk : k = t
    · exact ⟨v, by simp [regGet, hk]⟩
    · simp only [List.map_cons, List.mem_cons] at h
      rcases h with h | h
      · exact absurd h.symm hk
      · obtain ⟨tr, htr⟩ := ih h
        exact ⟨tr, by simp [regGet, hk, htr]⟩

theorem keys_regSet_mem {reg : Registry} {k : String} (v : TableRecord)
    (h : k ∈ reg.map Prod.fst) :
    (regSet reg k v).map Prod.fst = reg.map Prod.fst := by
  induction reg with
  | nil => simp at h
  | cons e rest ih =>
    obtain ⟨k', v'⟩ := e
    by_cases hk : k' = k
    · subst hk; simp [regSet]
    · simp only [List.map_cons, List.mem_cons] at h
      rcases h with h | h
      · exact absurd h.symm hk
      · simp [regSet, hk, ih h]

theorem keys_regSet_not_mem {reg : Registry} {k : String} (v : TableRecord)
    (h : k ∉ reg.map Prod.fst) :
    (regSet reg k v).map Prod.fst = reg.map Prod.fst ++ [k] := by
  induction reg with
  | nil => simp [regSet]
  | cons e rest ih =>
    obtain ⟨k', v'⟩ := e
    simp only [List.map_cons, List.mem_cons] at h
    push_neg at h
    have hk : ¬ (k' = k) := fun hk => h.1 hk.symm
    simp [regSet, if_neg hk, ih h.2]

/-- Python `set.add` only grows the set, as a sublist relation. -/
theorem addSet_grows (l : List String) (x : String) : l <+: addSet l x := by
  unfold addSet
  split
  · exact List.prefix_refl l
  · exact List.prefix_append l [x]

theorem mem_addSet {l : List String} {x y : String} :
    y ∈ addSet l x ↔ y ∈ l ∨ y = x := by
  unfold addSet
  split
  · rename_i hx
    constructor
    · exact Or.inl
    · rintro (h | rfl)
      · exact h
      · exact hx
  · simp

/-! ## The code-point lexicographic order -/

theorem char_eq_of_toNat_eq {a b : Char} (h : a.toNat = b.toNat) : a = b :=
  Char.eq_of_val_eq (by exact UInt32.toNat.inj h)

theorem lexLt_irrefl : ∀ l : List Char, lexLt l l = false := by
  intro l
  induction l with
  | nil => rfl
  | cons a l ih => simp [lexLt, ih]

theorem lexLt_asymm : ∀ a b : List Char, lexLt a b = true → lexLt b a = false := by
  intro a
  induction a with
  | nil =>
    intro b h
    cases b with
    | nil => simp [lexLt] at h
    | cons x xs => rfl
  | cons x xs ih =>
    intro b h
    cases b with
    | nil => simp [lexLt] at h
    | cons y ys =>
      simp only [lexLt] at h ⊢
      split_ifs at h ⊢ with h1 h2 h3 h4 <;> try omega
      · rfl
      · exact ih ys h
      all_goals simp_all

theorem lexLt_trans : ∀ a b c : List Char,
    lexLt a b = true → lexLt b c = true → lexLt a c = true := by
  intro a
  induction a with
  | nil =>
    intro b c hab hbc
    cases b with
    | nil => simp [lexLt] at hab
    | cons y ys =>
      cases c with
      | nil => simp [lexLt] at hbc
      | cons z zs => rfl
  | cons x xs ih =>
    intro b c hab hbc
    cases b with
    | nil => simp [lexLt] at hab
    | cons y ys =>
      cases c with
      | nil => simp [lexLt] at hbc
      | cons z zs =>
        simp only [lexLt] at hab hbc ⊢
        split_ifs at hab hbc ⊢ with h1 h2 h3 h4 h5 h6 <;> try rfl
        all_goals try omega
        all_goals try simp_all
        exact ih ys zs hab hbc

theorem lexLt_connex : ∀ a b : List Char,
    lexLt a b = false → lexLt b a = false → a = b := by
  intro a
  induction a with
  | nil =>
    intro b hab _
    cases b with
    | nil => rfl
    | cons y ys => simp [lexLt] at hab
  | cons x xs ih =>
    intro b hab hba
    cases b with
    | nil => simp [lexLt] at hba
    | cons y ys =>
      simp only [lexLt] at hab hba
      split_ifs at hab hba with h1 h2 <;> try simp_all
      have hxy : x = y := char_eq_of_toNat_eq (by omega)
      subst hxy
      exact ⟨rfl, ih ys hab hba⟩

theorem strLe_total : ∀ a b : String, strLe a b ∨ strLe b a := by
  intro a b
  cases hx : lexLt a.data b.data with
  | false => exact Or.inr hx
  | true => exact Or.inl (lexLt_asymm _ _ hx)

instance : IsTotal String strLe := ⟨strLe_total⟩

theorem strLe_trans : ∀ a b c : String, strLe a b → strLe b c → strLe a c := by
  intro a b c hab hbc
  unfold strLe at hab hbc ⊢
  cases hca : lexLt c.data a.data with
  | false => rfl
  | true =>
    exfalso
    cases hab' : lexLt a.data b.data with
    | true =>
      have : lexLt c.data b.data = true := lexLt_trans _ _ _ hca hab'
      rw [this] at hbc
      cases hbc
    | false =>
      have heq : a.data = b.data := lexLt_connex _ _ hab' hab
      rw [heq] at hca
      rw [hca] at hbc
      cases hbc

instance : IsTrans String strLe := ⟨strLe_trans⟩

theorem strLt_of_strLe_of_ne {a b : String} (hle : strLe a b) (hne : a ≠ b) :
    lexLt a.data b.data = true := by
  cases hx : lexLt a.data b.data with
  | true => rfl
  | false => exact absurd (String.ext (lexLt_connex _ _ hx hle)) hne

theorem sortStrings_sorted (l : List String) : List.Sorted strLe (sortStrings l) :=
  List.sorted_insertionSort strLe l

theorem sortStrings_perm (l : List String) : (sortStrings l).Perm l :=
  List.perm_insertionSort strLe l

/-! ## Characterization of the per-statement mutation -/

theorem foldPK_spec : ∀ (ls : List (List Char)) (r : TableRecord),
    ls.foldl (fun r cols => { r with primary_keys := addPKCols r.primary_keys cols }) r
      = { r with primary_keys := ls.foldl addPKCols r.primary_keys } := by
  intro ls
  induction ls with
  | nil => intro r; rfl
  | cons c cs ih =>
    intro r
    simp only [List.foldl_cons]
    rw [ih]

theorem foldFK_spec : ∀ (ms : List FKMatch) (r : TableRecord),
    ms.foldl addFK r = { r with
      foreign_keys := r.foreign_keys ++ ms.map renderFK
      dependencies := ms.foldl (fun d m => addSet d ⟨m.refTable⟩) r.dependencies } := by
  intro ms
  induction ms with
  | nil => intro r; simp
  | cons m ms ih =>
    intro r
    simp only [List.foldl_cons, List.map_cons]
    rw [ih]
    simp [addFK]

/-- The `ALTER TABLE` loop body, field by field: it appends the
statement text to `constraints_raw`, folds the primary-key captures
into `primary_keys`, appends the rendered foreign-key records, and adds
each referenced table to `dependencies`; all other fields are kept. -/
theorem applyStmt_spec (tr : TableRecord) (stmt : List Char) :
    applyStmt tr stmt = { tr with
      constraints_raw := tr.constraints_raw ++ [⟨stmt⟩]
      primary_keys := (scanPK stmt).foldl addPKCols tr.primary_keys
      foreign_keys := tr.foreign_keys ++ (scanFK stmt).map renderFK
      dependencies :=
        (scanFK stmt).foldl (fun d m => addSet d ⟨m.refTable⟩) tr.dependencies } := by
  simp only [applyStmt]
  rw [foldPK_spec, foldFK_spec]

/-! ## Entry-invariant preservation through the two passes -/

theorem foldl_create_entry (Q : String × TableRecord → Prop)
    (hQ : ∀ m : StmtMatch, Q (⟨m.table⟩, mkRecord m)) :
    ∀ (ms : List StmtMatch) (reg : Registry), (∀ e ∈ reg, Q e) →
      ∀ e ∈ ms.foldl (fun reg m => regSet reg ⟨m.table⟩ (mkRecord m)) reg, Q e := by
  intro ms
  induction ms with
  | nil => intro reg h e he; exact h e he
  | cons m ms ih =>
    intro reg h e he
    refine ih _ ?_ e he
    intro e' he'
    rcases mem_regSet _ _ _ he' with h' | h'
    · rw [h']; exact hQ m
    · exact h e' h'

/-- Every entry of the Table Collector's registry is a fresh record
seeded from one `CREATE TABLE` match, keyed by its table name. -/
theorem extract_entry (Q : String × TableRecord → Prop)
    (hQ : ∀ m : StmtMatch, Q (⟨m.table⟩, mkRecord m)) :
    ∀ (sql : String), ∀ e ∈ extract_tables_and_ddl sql, Q e := by
  intro sql e he
  exact foldl_create_entry Q hQ _ [] (by simp) e he

theorem foldl_alter_entry (Q : String × TableRecord → Prop)
    (hQ : ∀ (k : String) (tr : TableRecord) (stmt : List Char),
      Q (k, tr) → Q (k, applyStmt tr stmt)) :
    ∀ (ms : List StmtMatch) (reg : Registry), (∀ e ∈ reg, Q e) →
      ∀ e ∈ ms.foldl processAlter reg, Q e := by
  intro ms
  induction ms with
  | nil => intro reg h e he; exact h e he
  | cons m ms ih =>
    intro reg h e he
    refine ih _ ?_ e he
    intro e' he'
    unfold processAlter at he'
    cases hg : regGet reg ⟨m.table⟩ with
    | none => rw [hg] at he'; exact h e' he'
    | some tr =>
      rw [hg] at he'
      rcases mem_regSet _ _ _ he' with h' | h'
      · rw [h']; exact hQ _ _ _ (h _ (regGet_mem hg))
      · exact h e' h'

/-- Entry invariants survive the Constraint Parser, provided they are
stable under the loop body. -/
theorem parse_entry (Q : String × TableRecord → Prop)
    (hQ : ∀ (k : String) (tr : TableRecord) (stmt : List Char),
      Q (k, tr) → Q (k, applyStmt tr stmt)) :
    ∀ (sql : String) (reg : Registry), (∀ e ∈ reg, Q e) →
      ∀ e ∈ parse_constraints sql reg, Q e := by
  intro sql reg h e he
  exact foldl_alter_entry Q hQ _ reg h e he

/-! ## Key-set facts -/

theorem keys_processAlter (reg : Registry) (m : StmtMatch) :
    (processAlter reg m).map Prod.fst = reg.map Prod.fst := by
  unfold processAlter
  cases hg : regGet reg ⟨m.table⟩ with
  | none => rfl
  | some tr =>
    have hmem : (⟨m.table⟩ : String) ∈ reg.map Prod.fst :=
      List.mem_map.mpr ⟨_, regGet_mem hg, rfl⟩
    exact keys_regSet_mem _ hmem

theorem keys_foldl_alter : ∀ (ms : List StmtMatch) (reg : Registry),
    (ms.foldl processAlter reg).map Prod.fst = reg.map Prod.fst := by
  intro ms
  induction ms with
  | nil => intro reg; rfl
  | cons m ms ih =>
    intro reg
    simp only [List.foldl_cons]
    rw [ih, keys_processAlter]

/-- The Constraint Parser neither adds nor removes registry keys. -/
theorem keys_parse_constraints (sql : String) (reg : Registry) :
    (parse_constraints sql reg).map Prod.fst = reg.map Prod.fst :=
  keys_foldl_alter _ reg

theorem keys_foldl_create_nodup : ∀ (ms : List StmtMatch) (reg : Registry),
    (reg.map Prod.fst).Nodup →
      ((ms.foldl (fun reg m => regSet reg ⟨m.table⟩ (mkRecord m)) reg).map Prod.fst).Nodup := by
  intro ms
  induction ms with
  | nil => intro reg h; exact h
  | cons m ms ih =>
    intro reg h
    refine ih _ ?_
    by_cases hk : (⟨m.table⟩ : String) ∈ reg.map Prod.fst
    · rw [keys_regSet_mem _ hk]; exact h
    · rw [keys_regSet_not_mem _ hk]
      exact h.append (List.nodup_singleton _) (List.disjoint_singleton.mpr hk)

/-- Registry keys are distinct: a table name keys at most one record. -/
theorem keys_extract_nodup (sql : String) :
    ((extract_tables_and_ddl sql).map Prod.fst).Nodup :=
  keys_foldl_create_nodup _ [] (by simp)

/-! ## Primary-key fold invariants -/

theorem addPKCols_inv (pks : List String) (cols : List Char)
    (h : pks.Nodup ∧ "" ∉ pks) :
    (addPKCols pks cols).Nodup ∧ "" ∉ addPKCols pks cols := by
  unfold addPKCols
  generalize cleanCols cols = ts
  induction ts generalizing pks with
  | nil => exact h
  | cons t ts ih =>
    simp only [List.foldl_cons]
    apply ih
    by_cases hc : t ≠ "" ∧ t ∉ pks
    · rw [if_pos hc]
      refine ⟨h.1.append (List.nodup_singleton t) (List.disjoint_singleton.mpr hc.2), ?_⟩
      simp only [List.mem_append, List.mem_singleton]
      rintro (he | he)
      · exact h.2 he
      · exact hc.1 he.symm
    · rw [if_neg hc]
      exact h

theorem foldl_addPKCols_inv : ∀ (ls : List (List Char)) (pks : List String),
    pks.Nodup ∧ "" ∉ pks →
      (ls.foldl addPKCols pks).Nodup ∧ "" ∉ ls.foldl addPKCols pks := by
  intro ls
  induction ls with
  | nil => intro pks h; exact h
  | cons c cs ih =>
    intro pks h
    exact ih _ (addPKCols_inv pks c h)

theorem addPKCols_grows (pks : List String) (cols : List Char) :
    pks <+: addPKCols pks cols := by
  unfold addPKCols
  generalize cleanCols cols = ts
  induction ts generalizing pks with
  | nil => exact List.prefix_refl pks
  | cons t ts ih =>
    simp only [List.foldl_cons]
    refine List.IsPrefix.trans ?_ (ih _)
    by_cases hc : t ≠ "" ∧ t ∉ pks
    · rw [if_pos hc]; exact List.prefix_append pks [t]
    · rw [if_neg hc]

theorem foldl_addPKCols_grows : ∀ (ls : List (List Char)) (pks : List String),
    pks <+: ls.foldl addPKCols pks := by
  intro ls
  induction ls with
  | nil => intro pks; exact List.prefix_refl pks
  | cons c cs ih =>
    intro pks
    exact List.IsPrefix.trans (addPKCols_grows pks c) (ih _)

/-! ## Dependency fold facts -/

theorem foldl_addSet_grows (f : FKMatch → String) :
    ∀ (ms : List FKMatch) (l : List String), l <+: ms.foldl (fun d m => addSet d (f m)) l := by
  intro ms
  induction ms with
  | nil => intro l; exact List.prefix_refl l
  | cons m ms ih =>
    intro l
    exact List.IsPrefix.trans (addSet_grows l (f m)) (ih _)

theorem mem_foldl_addSet (f : FKMatch → String) :
    ∀ (ms : List FKMatch) (l : List String) (x : String),
      x ∈ ms.foldl (fun d m => addSet d (f m)) l ↔ x ∈ l ∨ x ∈ ms.map f := by
  intro ms
  induction ms with
  | nil => intro l x; simp
  | cons m ms ih =>
    intro l x
    simp only [List.foldl_cons, List.map_cons, List.mem_cons]
    rw [ih, mem_addSet]
    tauto

/-! ## Serializer decomposition -/

theorem serial_names (reg : Registry) (hinv : ∀ e ∈ reg, e.2.name = e.1) :
    (to_serializable reg).map OutRecord.name = sortStrings (reg.map Prod.fst) := by
  unfold to_serializable
  have hsub : ∀ n ∈ sortStrings (reg.map Prod.fst), n ∈ reg.map Prod.fst :=
    fun n hn => (sortStrings_perm _).mem_iff.mp hn
  generalize sortStrings (reg.map Prod.fst) = l at hsub ⊢
  induction l with
  | nil => rfl
  | cons n l ih =>
    have hn : n ∈ reg.map Prod.fst := hsub n (by simp)
    obtain ⟨tr, htr⟩ := regGet_some_of_mem_keys hn
    have hname : tr.name = n := hinv _ (regGet_mem htr)
    simp only [List.filterMap_cons, htr, Option.map_some']
    simp only [List.map_cons]
    rw [ih (fun x hx => hsub x (List.mem_cons_of_mem _ hx))]
    simp [renderOut, hname]

theorem mem_serial {reg : Registry} {o : OutRecord} (h : o ∈ to_serializable reg) :
    ∃ n tr, regGet reg n = some tr ∧ o = renderOut tr := by
  unfold to_serializable at h
  rcases List.mem_filterMap.mp h with ⟨n, _, hf⟩
  cases htr : regGet reg n with
  | none => rw [htr] at hf; cases hf
  | some tr =>
    rw [htr] at hf
    exact ⟨n, tr, htr, (Option.some.inj hf).symm⟩

/-- Every final-registry record's `name` field equals its key. -/
theorem name_inv (sql : String) :
    ∀ e ∈ parse_constraints sql (extract_tables_and_ddl sql), e.2.name = e.1 := by
  intro e he
  refine parse_entry (fun e => e.2.name = e.1) ?_ sql _ ?_ e he
  · intro k tr stmt h
    simp only [applyStmt_spec]
    exact h
  · exact extract_entry (fun e => e.2.name = e.1) (fun m => rfl) sql

/-! ## The pipeline, as used by both API routes -/

/-- The final registry: `collect_tables` then `parse_constraints` on
the same input text, as both API routes do. -/
def finalRegistry (sql_text : String) : Registry :=
  parse_constraints sql_text (extract_tables_and_ddl sql_text)

/-- The whole pipeline: the JSON-ready output sequence for one input. -/
def pipeline (sql_text : String) : List OutRecord :=
  to_serializable (finalRegistry sql_text)

/-! ## Dependency consistency -/

/-- The spec's dependency-consistency invariant for one table record:
there is a list of referenced table names, one per foreign-key record
in order, whose set equals the dependency set, and each foreign-key
record's rendered `references` string is its table name followed by a
parenthesised column list. -/
def DepsConsistent (tr : TableRecord) : Prop :=
  ∃ ps : List (String × ForeignKeyRecord),
    tr.foreign_keys = ps.map Prod.snd ∧
    (∀ x, x ∈ tr.dependencies ↔ x ∈ ps.map Prod.fst) ∧
    ∀ p ∈ ps, ∃ cols, p.2.references = p.1 ++ "(" ++ cols ++ ")"

theorem depsConsistent_applyStmt (tr : TableRecord) (stmt : List Char)
    (h : DepsConsistent tr) : DepsConsistent (applyStmt tr stmt) := by
  obtain ⟨ps, hfk, hdep, href⟩ := h
  refine ⟨ps ++ (scanFK stmt).map (fun m => ((⟨m.refTable⟩ : String), renderFK m)),
    ?_, ?_, ?_⟩
  · simp only [applyStmt_spec, List.map_append, List.map_map, hfk]
    rfl
  · intro x
    simp only [applyStmt_spec]
    rw [mem_foldl_addSet (fun m => (⟨m.refTable⟩ : String))]
    simp only [List.map_append, List.map_map, List.mem_append]
    rw [hdep x]
    rfl
  · intro p hp
    rcases List.mem_append.mp hp with hin | hin
    · exact href p hin
    · rcases List.mem_map.mp hin with ⟨m, _, heq⟩
      refine ⟨renderCols m.refCols, ?_⟩
      rw [← heq]
      rfl

theorem depsConsistent_mkRecord (m : StmtMatch) : DepsConsistent (mkRecord m) :=
  ⟨[], rfl, by simp [mkRecord], by simp⟩

/-! ## Orphan-skip and frame lemmas -/

/-- An `ALTER TABLE` match whose table is not a registry key leaves the
registry untouched. -/
theorem processAlter_skip (reg : Registry) (m : StmtMatch)
    (h : (⟨m.table⟩ : String) ∉ reg.map Prod.fst) : processAlter reg m = reg := by
  unfold processAlter
  rw [regGet_eq_none_of_not_mem h]

/-- The Constraint Parser on an empty registry is the identity. -/
theorem parse_constraints_nil (sql : String) : parse_constraints sql [] = [] := by
  unfold parse_constraints
  generalize scanStmts alterKW sql.data = ms
  induction ms with
  | nil => rfl
  | cons m ms ih => simpa [processAlter, regGet] using ih

/-- The frame relation of the Constraint Parser: the identity fields
are kept, the three list fields only grow at the end, the dependency
set only gains elements. -/
def FrameLe (a b : TableRecord) : Prop :=
  b.name = a.name ∧ b.schema_name = a.schema_name ∧ b.schema_stmt = a.schema_stmt ∧
  a.constraints_raw <+: b.constraints_raw ∧ a.primary_keys <+: b.primary_keys ∧
  a.foreign_keys <+: b.foreign_keys ∧ a.dependencies ⊆ b.dependencies

theorem frameLe_refl (a : TableRecord) : FrameLe a a :=
  ⟨rfl, rfl, rfl, List.prefix_refl _, List.prefix_refl _, List.prefix_refl _,
    fun _ h => h⟩

theorem frameLe_trans {a b c : TableRecord} (h1 : FrameLe a b) (h2 : FrameLe b c) :
    FrameLe a c :=
  ⟨h2.1.trans h1.1, h2.2.1.trans h1.2.1, h2.2.2.1.trans h1.2.2.1,
    h1.2.2.2.1.trans h2.2.2.2.1, h1.2.2.2.2.1.trans h2.2.2.2.2.1,
    h1.2.2.2.2.2.1.trans h2.2.2.2.2.2.1,
    fun x hx => h2.2.2.2.2.2.2 (h1.2.2.2.2.2.2 hx)⟩

theorem frameLe_applyStmt (tr : TableRecord) (stmt : List Char) :
    FrameLe tr (applyStmt tr stmt) := by
  rw [applyStmt_spec]
  exact ⟨rfl, rfl, rfl, List.prefix_append _ _, foldl_addPKCols_grows _ _,
    List.prefix_append _ _,
    (foldl_addSet_grows (fun m => (⟨m.refTable⟩ : String)) _ _).subset⟩

theorem processAlter_frame (reg : Registry) (m : StmtMatch) (t : String) :
    (regGet (processAlter reg m) t = none ↔ regGet reg t = none) ∧
    (∀ tr, regGet reg t = some tr →
      ∃ tr', regGet (processAlter reg m) t = some tr' ∧ FrameLe tr tr') := by
  unfold processAlter
  cases hg : regGet reg ⟨m.table⟩ with
  | none => exact ⟨Iff.rfl, fun tr h => ⟨tr, h, frameLe_refl tr⟩⟩
  | some tr0 =>
    rw [regGet_regSet]
    by_cases ht : (⟨m.table⟩ : String) = t
    · subst ht
      rw [if_pos rfl]
      refine ⟨by simp [hg], ?_⟩
      intro tr h
      rw [hg] at h
      cases h
      exact ⟨applyStmt tr0 m.stmt, rfl, frameLe_applyStmt tr0 m.stmt⟩
    · rw [if_neg ht]
      exact ⟨Iff.rfl, fun tr h => ⟨tr, h, frameLe_refl tr⟩⟩

theorem foldl_alter_frame : ∀ (ms : List StmtMatch) (reg : Registry) (t : String),
    (regGet (ms.foldl processAlter reg) t = none ↔ regGet reg t = none) ∧
    (∀ tr, regGet reg t = some tr →
      ∃ tr', regGet (ms.foldl processAlter reg) t = some tr' ∧ FrameLe tr tr') := by
  intro ms
  induction ms with
  | nil => exact fun reg t => ⟨Iff.rfl, fun tr h => ⟨tr, h, frameLe_refl tr⟩⟩
  | cons m ms ih =>
    intro reg t
    simp only [List.foldl_cons]
    constructor
    · rw [(ih (processAlter reg m) t).1, (processAlter_frame reg m t).1]
    · intro tr h
      obtain ⟨tr1, h1, hf1⟩ := (processAlter_frame reg m t).2 tr h
      obtain ⟨tr2, h2, hf2⟩ := (ih (processAlter reg m) t).2 tr1 h1
      exact ⟨tr2, h2, frameLe_trans hf1 hf2⟩

/-! ## Last-writer-wins for duplicate table names -/

theorem regGet_foldl_create : ∀ (ms : List StmtMatch) (reg : Registry) (t : String),
    regGet (ms.foldl (fun r m => regSet r ⟨m.table⟩ (mkRecord m)) reg) t =
      match (ms.filter fun m => (⟨m.table⟩ : String) == t).getLast? with
      | some m => some (mkRecord m)
      | none => regGet reg t := by
  intro ms
  induction ms with
  | nil => intro reg t; rfl
  | cons m ms ih =>
    intro reg t
    simp only [List.foldl_cons, List.filter_cons]
    by_cases hb : (⟨m.table⟩ : String) = t
    · simp only [hb, beq_self_eq_true, if_pos]
      rw [ih]
      cases hf : (ms.filter fun m => (⟨m.table⟩ : String) == t).getLast? with
      | some m' => simp [List.getLast?_cons, hf]
      | none =>
        have hnil : (ms.filter fun m => (⟨m.table⟩ : String) == t) = [] := by
          cases hl : ms.filter fun m => (⟨m.table⟩ : String) == t with
          | nil => rfl
          | cons x xs => rw [hl] at hf; simp [List.getLast?_cons] at hf
        simp [hnil, regGet_regSet, hb]
    · have hbne : ¬ ((⟨m.table⟩ : String) == t) = true := by simp [hb]
      simp only [if_neg hbne]
      rw [ih]
      cases hf : (ms.filter fun m => (⟨m.table⟩ : String) == t).getLast? with
      | some m' => rfl
      | none => simp [regGet_regSet, hb]

/-! ## Concrete inputs -/

/-- The four-statement example scenario of the spec. -/
def exSQL : String :=
"CREATE TABLE \"public\".\"users\" (id int);\nCREATE TABLE \"public\".\"orders\" (id int, user_id int);\nALTER TABLE \"public\".\"orders\" ADD CONSTRAINT pk PRIMARY KEY (\"id\");\nALTER TABLE \"public\".\"orders\" ADD CONSTRAINT fk FOREIGN KEY (\"user_id\") REFERENCES \"public\".\"users\" (\"id\");"

/-- The record the Table Collector builds for `users` in the example
(no constraint statement targets it, so it is also its final state). -/
def usersRec : TableRecord :=
  { name := "users"
    schema_name := "public"
    schema_stmt := "CREATE TABLE \"public\".\"users\" (id int);"
    constraints_raw := []
    primary_keys := []
    foreign_keys := []
    dependencies := [] }

/-- The orphan constraint statement of the spec's error-handling test. -/
def ghostSQL : String := "ALTER TABLE \"s\".\"ghost\" ADD PRIMARY KEY (\"id\");"

/-- A blank table record (empty lists everywhere). -/
def blankRec : TableRecord :=
  { name := "t"
    schema_name := "s"
    schema_stmt := ""
    constraints_raw := []
    primary_keys := []
    foreign_keys := []
    dependencies := [] }

/-- One statement text containing two identical foreign-key clauses. -/
def dblFKStmt : String :=
"ALTER TABLE \"s\".\"t\" ADD FOREIGN KEY (\"a\") REFERENCES \"s\".\"u\" (\"x\"), ADD FOREIGN KEY (\"a\") REFERENCES \"s\".\"u\" (\"x\");"

/-! ## The claims -/

set_option maxRecDepth 100000 in
/-- C1: on the four-statement example input, the pipeline
(`collect_tables` = `extract_tables_and_ddl`, then `parse_constraints`,
then `serialize` = `to_serializable`) yields exactly two records,
ordered `orders` then `users`; `orders` has primary keys `["id"]`, one
foreign key `{column := "user_id", references := "users(id)"}` and
dependencies `["users"]`; `users` has empty primary keys and empty
dependencies. -/
theorem claim_C1 :
    (pipeline exSQL).map (fun o => (o.name, o.primary_keys, o.foreign_keys, o.dependencies)) =
      [("orders", ["id"], [{ column := "user_id", references := "users(id)" }], ["users"]),
       ("users", [], [], [])] := by decide

/-- C2: in every registry produced by the pipeline, every table's
primary-key list has no repeated column name and contains no empty
token (the splitting on commas, stripping of whitespace then quotes,
dropping of empties and first-occurrence appending is `addPKCols`,
folded over the `PRIMARY KEY` captures by `applyStmt`). -/
theorem claim_C2 (sql : String) :
    ∀ e ∈ parse_constraints sql (extract_tables_and_ddl sql),
      e.2.primary_keys.Nodup ∧ "" ∉ e.2.primary_keys := by
  intro e he
  refine parse_entry (fun e => e.2.primary_keys.Nodup ∧ "" ∉ e.2.primary_keys) ?_ sql _ ?_ e he
  · intro k tr stmt h
    simp only [applyStmt_spec]
    exact foldl_addPKCols_inv _ _ h
  · exact extract_entry (fun e => e.2.primary_keys.Nodup ∧ "" ∉ e.2.primary_keys)
      (fun m => by simp [mkRecord]) sql

set_option maxRecDepth 100000 in
theorem claim_C2_witness :
    (("users", usersRec) ∈ parse_constraints exSQL (extract_tables_and_ddl exSQL)) ∧
      usersRec.primary_keys.Nodup ∧ "" ∉ usersRec.primary_keys :=
  ⟨by decide, claim_C2 exSQL ("users", usersRec) (by decide)⟩

/-- C3: in every registry produced by the pipeline, every table's
dependency set is exactly the set of referenced table names of its
foreign-key records (`DepsConsistent`), and every serialized record's
`dependencies` sequence has exactly the members of its table's
dependency set — the serializer adds nothing. -/
theorem claim_C3 (sql : String) :
    (∀ e ∈ parse_constraints sql (extract_tables_and_ddl sql), DepsConsistent e.2) ∧
    (∀ o ∈ to_serializable (parse_constraints sql (extract_tables_and_ddl sql)),
      ∃ n tr, regGet (parse_constraints sql (extract_tables_and_ddl sql)) n = some tr ∧
        o = renderOut tr ∧ ∀ x, x ∈ o.dependencies ↔ x ∈ tr.dependencies) := by
  constructor
  · intro e he
    refine parse_entry (fun e => DepsConsistent e.2) ?_ sql _ ?_ e he
    · intro k tr stmt h
      exact depsConsistent_applyStmt tr stmt h
    · exact extract_entry (fun e => DepsConsistent e.2)
        (fun m => depsConsistent_mkRecord m) sql
  · intro o ho
    obtain ⟨n, tr, hget, heq⟩ := mem_serial ho
    refine ⟨n, tr, hget, heq, ?_⟩
    intro x
    rw [heq]
    show x ∈ sortStrings tr.dependencies ↔ x ∈ tr.dependencies
    exact (sortStrings_perm _).mem_iff

set_option maxRecDepth 100000 in
theorem claim_C3_witness :
    (("users", usersRec) ∈ parse_constraints exSQL (extract_tables_and_ddl exSQL)) ∧
      DepsConsistent usersRec :=
  ⟨by decide, (claim_C3 exSQL).1 ("users", usersRec) (by decide)⟩

/-- C4: the serializer's output is strictly sorted by the `name` field
under the code-point lexicographic order (`lexLt`, the model of
Python's string `<`): record `i` precedes record `j` iff its name is
smaller; and every output record's `dependencies` is an
ascending-sorted sequence. -/
theorem claim_C4 (sql : String) :
    (∀ i j : Fin (pipeline sql).length,
        i < j ↔ lexLt ((pipeline sql).get i).name.data ((pipeline sql).get j).name.data = true) ∧
    (∀ o ∈ pipeline sql, List.Sorted strLe o.dependencies) := by
  have hkeys : ((finalRegistry sql).map Prod.fst).Nodup := by
    show ((parse_constraints sql (extract_tables_and_ddl sql)).map Prod.fst).Nodup
    rw [keys_parse_constraints]
    exact keys_extract_nodup sql
  have hnames : (pipeline sql).map OutRecord.name =
      sortStrings ((finalRegistry sql).map Prod.fst) :=
    serial_names _ (name_inv sql)
  have hsorted : List.Pairwise strLe ((pipeline sql).map OutRecord.name) := by
    rw [hnames]
    exact sortStrings_sorted _
  have hnd : ((pipeline sql).map OutRecord.name).Nodup := by
    rw [hnames]
    exact (sortStrings_perm _).symm.nodup hkeys
  have hp : List.Pairwise (fun a b : OutRecord => lexLt a.name.data b.name.data = true)
      (pipeline sql) :=
    List.pairwise_map.mp ((hsorted.and hnd).imp fun h => strLt_of_strLe_of_ne h.1 h.2)
  constructor
  · intro i j
    constructor
    · intro hij
      exact List.pairwise_iff_get.mp hp i j hij
    · intro hlt
      rcases lt_trichotomy i j with h | h | h
      · exact h
      · exfalso
        rw [h, lexLt_irrefl] at hlt
        cases hlt
      · exfalso
        have hji := List.pairwise_iff_get.mp hp j i h
        rw [lexLt_asymm _ _ hji] at hlt
        cases hlt
  · intro o ho
    obtain ⟨n, tr, hget, heq⟩ := mem_serial ho
    rw [heq]
    show List.Sorted strLe (sortStrings tr.dependencies)
    exact sortStrings_sorted _

set_option maxRecDepth 100000 in
theorem claim_C4_witness :
    (pipeline exSQL).get ⟨0, by decide⟩ ∈ pipeline exSQL ∧
      List.Sorted strLe ((pipeline exSQL).get ⟨0, by decide⟩).dependencies :=
  ⟨List.get_mem (pipeline exSQL) 0 (by decide),
    (claim_C4 exSQL).2 _ (List.get_mem (pipeline exSQL) 0 (by decide))⟩

/-- C5: an `ALTER TABLE` match whose quoted table name is not a
registry key is skipped entirely — the per-statement step returns the
registry unchanged, a whole pass of such statements is the identity,
and the orphan `ALTER TABLE "s"."ghost" ADD PRIMARY KEY ("id");` input
produces an empty registry and empty output (no error is possible:
every function is total). -/
theorem claim_C5 :
    (∀ (reg : Registry) (m : StmtMatch), (⟨m.table⟩ : String) ∉ reg.map Prod.fst →
        processAlter reg m = reg) ∧
    (∀ (sql : String) (reg : Registry),
        (∀ m ∈ scanStmts alterKW sql.data, (⟨m.table⟩ : String) ∉ reg.map Prod.fst) →
          parse_constraints sql reg = reg) ∧
    extract_tables_and_ddl ghostSQL = [] ∧ finalRegistry ghostSQL = [] ∧
      pipeline ghostSQL = [] := by
  refine ⟨fun reg m h => processAlter_skip reg m h, ?_, by decide, by decide, by decide⟩
  intro sql reg h
  show (scanStmts alterKW sql.data).foldl processAlter reg = reg
  revert h
  generalize scanStmts alterKW sql.data = ms
  induction ms with
  | nil => intro _; rfl
  | cons m ms ih =>
    intro h
    simp only [List.foldl_cons]
    rw [processAlter_skip reg m (h m (by simp))]
    exact ih fun m' hm' => h m' (List.mem_cons_of_mem _ hm')

theorem claim_C5_witness :
    ((⟨"ghost".data⟩ : String) ∉ (([] : Registry).map Prod.fst)) ∧
      processAlter [] ⟨ghostSQL.data, "s".data, "ghost".data⟩ = [] :=
  ⟨by decide, claim_C5.1 [] ⟨ghostSQL.data, "s".data, "ghost".data⟩ (by decide)⟩

/-- C6: the Table Collector's registry maps a table name to the record
seeded from the last `CREATE TABLE` match with that name in text
order — the earlier record is fully replaced (the lookup sees only
`mkRecord` of the last matching occurrence, never a merge). -/
theorem claim_C6 (sql : String) (t : String) :
    regGet (extract_tables_and_ddl sql) t =
      ((scanStmts createKW sql.data).filter fun m => (⟨m.table⟩ : String) == t).getLast?.map
        mkRecord := by
  show regGet ((scanStmts createKW sql.data).foldl
      (fun reg m => regSet reg ⟨m.table⟩ (mkRecord m)) []) t = _
  rw [regGet_foldl_create]
  cases ((scanStmts createKW sql.data).filter fun m => (⟨m.table⟩ : String) == t).getLast? with
  | some m => rfl
  | none => rfl

set_option maxRecDepth 100000 in
/-- C7: each matched foreign-key clause appends exactly one rendered
record: `column` is the comma-joined stripped local column list and
`references` is the referenced table name followed by the
parenthesised comma-joined stripped referenced columns, with the
captured referenced schema dropped (the render does not depend on it);
entries are appended in match order with no de-duplication, so the
two identical clauses of `dblFKStmt` produce two identical entries. -/
theorem claim_C7 :
    (∀ (tr : TableRecord) (stmt : List Char),
        (applyStmt tr stmt).foreign_keys = tr.foreign_keys ++ (scanFK stmt).map renderFK) ∧
    (∀ m : FKMatch, renderFK m =
        { column := renderCols m.localCols
          references := String.mk m.refTable ++ "(" ++ renderCols m.refCols ++ ")" }) ∧
    (∀ (m : FKMatch) (s : List Char), renderFK { m with refSchema := s } = renderFK m) ∧
    (applyStmt blankRec dblFKStmt.data).foreign_keys =
      [{ column := "a", references := "u(x)" }, { column := "a", references := "u(x)" }] := by
  refine ⟨?_, fun m => rfl, fun m s => rfl, by decide⟩
  intro tr stmt
  rw [applyStmt_spec]

/-- C8: a serialized record's `constraints` field is the entries of
`constraints_raw`, each stripped of surrounding whitespace, joined by a
newline and two spaces; it is the empty string when `constraints_raw`
is empty (the two cases of the code coincide with the single join
formula, since the join of no pieces is empty). -/
theorem claim_C8 (tr : TableRecord) :
    (renderOut tr).constraints =
        String.intercalate "\n  " (tr.constraints_raw.map pyStripS) ∧
      (tr.constraints_raw = [] → (renderOut tr).constraints = "") := by
  constructor
  · show (if tr.constraints_raw = [] then ""
      else String.intercalate "\n  " (tr.constraints_raw.map pyStripS)) = _
    split_ifs with h
    · rw [h]
      rfl
    · rfl
  · intro h
    show (if tr.constraints_raw = [] then ""
      else String.intercalate "\n  " (tr.constraints_raw.map pyStripS)) = ""
    rw [if_pos h]

theorem claim_C8_witness :
    blankRec.constraints_raw = [] ∧ (renderOut blankRec).constraints = "" :=
  ⟨rfl, (claim_C8 blankRec).2 rfl⟩

/-- C9: `parse_constraints` preserves the key set pointwise (a key
resolves after the pass iff it resolved before) and for every record it
keeps `name`, `schema_name` and `definition_text` (`schema_stmt`)
unchanged, only appends to `constraint_statements`, `primary_keys` and
`foreign_keys`, and only adds to `dependencies` (`FrameLe`); in the
embedding the Python in-place mutation returning `None` is the
returned updated registry. -/
theorem claim_C9 (sql : String) (reg : Registry) (t : String) :
    (regGet (parse_constraints sql reg) t = none ↔ regGet reg t = none) ∧
    ∀ tr, regGet reg t = some tr →
      ∃ tr', regGet (parse_constraints sql reg) t = some tr' ∧ FrameLe tr tr' :=
  foldl_alter_frame (scanStmts alterKW sql.data) reg t

set_option maxRecDepth 100000 in
theorem claim_C9_witness :
    regGet (extract_tables_and_ddl exSQL) "users" = some usersRec ∧
      ∃ tr', regGet (parse_constraints exSQL (extract_tables_and_ddl exSQL)) "users" =
          some tr' ∧ FrameLe usersRec tr' :=
  ⟨by decide,
    (claim_C9 exSQL (extract_tables_and_ddl exSQL) "users").2 usersRec (by decide)⟩

/-- C10: an input with no `CREATE TABLE` match (in particular the empty
string) yields an empty registry from the Table Collector, an empty
registry after the Constraint Parser, and an empty output sequence from
the Snapshot Serializer; every stage is a total function, so no error
is raised. -/
theorem claim_C10 :
    (∀ sql : String, scanStmts createKW sql.data = [] →
        extract_tables_and_ddl sql = [] ∧ finalRegistry sql = [] ∧ pipeline sql = []) ∧
    extract_tables_and_ddl "" = [] ∧ finalRegistry "" = [] ∧ pipeline "" = [] := by
  constructor
  · intro sql h
    have h1 : extract_tables_and_ddl sql = [] := by
      show (scanStmts createKW sql.data).foldl
        (fun reg m => regSet reg ⟨m.table⟩ (mkRecord m)) [] = []
      rw [h]
      rfl
    have h2 : finalRegistry sql = [] := by
      show parse_constraints sql (extract_tables_and_ddl sql) = []
      rw [h1]
      exact parse_constraints_nil sql
    refine ⟨h1, h2, ?_⟩
    show to_serializable (finalRegistry sql) = []
    rw [h2]
    rfl
  · exact ⟨rfl, rfl, rfl⟩

theorem claim_C10_witness :
    scanStmts createKW ("no ddl here" : String).data = [] ∧
      extract_tables_and_ddl "no ddl here" = [] :=
  ⟨by decide, (claim_C10.1 "no ddl here" (by decide)).1⟩

/-! ## Fuel adequacy of the three concrete scanners -/

theorem scanStmts_fuel (kw : List Char) (hkw : kw ≠ []) (f : Nat) (cs : List Char)
    (h : cs.length ≤ f) : scanAux (matchStmtAt kw) f cs = scanStmts kw cs :=
  scanAux_stable (matchStmtAt kw) (fun _ _ hp => matchStmtAt_lt hkw hp) f cs.length cs h
    (Nat.le_refl _)

theorem scanPK_fuel (f : Nat) (cs : List Char) (h : cs.length ≤ f) :
    scanAux matchPKAt f cs = scanPK cs :=
  scanAux_stable matchPKAt (fun _ _ hp => matchPKAt_lt hp) f cs.length cs h (Nat.le_refl _)

theorem scanFK_fuel (f : Nat) (cs : List Char) (h : cs.length ≤ f) :
    scanAux matchFKAt f cs = scanFK cs :=
  scanAux_stable matchFKAt (fun _ _ hp => matchFKAt_lt hp) f cs.length cs h (Nat.le_refl _)
